import Mathlib

/-!
Verification of the diffrax repository fragment.

This file shallowly embeds the code of `src/diffrax/misc/misc.py`
(`fill_forward`, `ContainerMeta`, `stack_pytrees`) and, for the parts of the
library whose implementation is absent from the repository fragment (the
integration loop, step-size controllers, the virtual Brownian tree), models
them from the specification, pinned where possible by the assertions of
`src/test/test_integrate.py`.

Floating-point arrays are modelled over `ℚ`; a possibly-NaN float entry is
modelled as `Option ℚ` with `none` playing the role of NaN.
-/

namespace Diffrax

/-! ## fill_forward (src/diffrax/misc/misc.py, lines 38-50)

A 2-D array `ys` of shape (times, channels) is a list of rows, each row a
list of `Option ℚ` entries (`none` = NaN). -/
/-- One float entry: `none` models NaN. -/
abbrev FVal := Option ℚ

/-- One row of the array: all channels at one time point. -/
abbrev Row := List FVal

/-- Model of `jnp.where(jnp.isnan yi, last_observed_yi, yi)`, elementwise:
keep `yi`'s entry when it is not NaN, else take the carry's entry. -/
def whereNaN (last yi : Row) : Row :=
  List.zipWith (fun l x => match x with | none => l | some v => some v) last yi

/-- Body of the `lax.scan` in `fill_forward`: the filled row is both the new
carry and the output row. -/
def ffScanBody (last yi : Row) : Row × Row :=
  let yi := whereNaN last yi
  (yi, yi)

/-- Model of `lax.scan f init xs`, keeping the stacked outputs (the carry is discarded
by `fill_forward`). -/
def scanOut (f : Row → Row → Row × Row) : Row → List Row → List Row
  | _, [] => []
  | carry, x :: xs =>
    let p := f carry x
    p.2 :: scanOut f p.1 xs

/-- Model of `fill_forward(ys)`: scan `_fill_forward` over the rows with initial carry
`ys[0]`. -/
def fill_forward (ys : List Row) : List Row :=
  match ys with
  | [] => []
  | y0 :: _ => scanOut ffScanBody y0 ys

/-- The last non-NaN value of a list of entries (searching from the end),
`none` when every entry is NaN. Spec-side helper used to state what
"most recent non-NaN entry" means. -/
def lastSome : List FVal → FVal
  | [] => none
  | x :: xs =>
    match lastSome xs with
    | some v => some v
    | none => x

/-- One-dimensional version of the scan, acting on a single channel. -/
def scan1 : FVal → List FVal → List FVal
  | _, [] => []
  | carry, x :: xs =>
    let x' := match x with | none => carry | some v => some v
    x' :: scan1 x' xs

/-- A concrete 3×2 array with NaNs used to instantiate `fill_forward_spec`. -/
def ffExample : List Row := [[some 1, none], [none, some 2], [none, none]]

/-! ## ContainerMeta (src/diffrax/misc/misc.py, lines 18-35)

A class body is a list of (attribute name, declared value) pairs in
declaration order; Python dict semantics (insertion order, unique keys) are
reflected by the list plus a no-duplicate-keys hypothesis. -/
/-- Attribute names as character lists (so that everything computes in the
kernel; `String` is just a wrapper around `List Char`). -/
abbrev Name := List Char

/-- Model of `s.startswith("__")`. -/
def beginsDunder : Name → Bool
  | '_' :: '_' :: _ => true
  | _ => false

/-- A Python name is a dunder when it starts and ends with a double
underscore: `key.startswith("__") and key.endswith("__")`. -/
def isDunder (s : Name) : Bool := beginsDunder s && beginsDunder s.reverse

/-- The class body handed to ContainerMeta.__new__. -/
abbrev ClassDict (V : Type) := List (Name × V)

/-- The loop of `ContainerMeta.__new__`, with `i` the running tag counter:
dunder entries keep their value (`Sum.inl`), every other entry is rebound to
the next consecutive tag (`Sum.inr`), and the reverse lookup records the
original value under that tag. -/
def containerLoop {V : Type} : ClassDict V → ℕ →
    List (Name × (V ⊕ ℕ)) × List (ℕ × V)
  | [], _ => ([], [])
  | (k, v) :: rest, i =>
    if isDunder k then
      let p := containerLoop rest i
      ((k, Sum.inl v) :: p.1, p.2)
    else
      let p := containerLoop rest (i + 1)
      ((k, Sum.inr i) :: p.1, (i, v) :: p.2)

/-- Model of `ContainerMeta.__new__`: the rebuilt class dict and `_reverse_lookup`. -/
def containerNew {V : Type} (d : ClassDict V) :
    List (Name × (V ⊕ ℕ)) × List (ℕ × V) :=
  containerLoop d 0

/-- Attribute access `cls.k` on a class built by ContainerMeta. -/
def containerAttr {V : Type} (d : ClassDict V) (k : Name) : Option (V ⊕ ℕ) :=
  (containerNew d).1.lookup k

/-- Model of `ContainerMeta.__getitem__`: `cls[i] = cls._reverse_lookup[i]`. -/
def containerGetitem {V : Type} (d : ClassDict V) (i : ℕ) : Option V :=
  (containerNew d).2.lookup i

/-- The non-dunder entries of the class body, in declaration order. -/
def nonDunder {V : Type} (d : ClassDict V) : ClassDict V :=
  d.filter (fun e => !(isDunder e.1))

/-- A concrete class body instantiating `containerMeta_spec`. -/
def cmExample : ClassDict ℕ :=
  [(("__doc__").toList, 100), (("alpha").toList, 10),
    (("__qualname__").toList, 101), (("beta").toList, 20)]

/-! ## Pytrees (external "nested container" interface; §3 of the spec)

Pytrees are modelled as finitely-branching rose trees with numeric leaves;
the treedef of a tree is the same tree with its leaf data erased. -/
mutual
/-- A pytree: a leaf, or a container of child pytrees. -/
inductive PTree (α : Type) where
  | leaf (a : α)
  | node (cs : PForest α)
  deriving DecidableEq
/-- The ordered children of a pytree node. -/
inductive PForest (α : Type) where
  | nil
  | cons (t : PTree α) (ts : PForest α)
  deriving DecidableEq
end

mutual
/-- Structure-preserving map over a pytree. -/
def PTree.map {α β : Type} (f : α → β) : PTree α → PTree β
  | .leaf a => .leaf (f a)
  | .node cs => .node (PForest.map f cs)
/-- Structure-preserving map over a forest. -/
def PForest.map {α β : Type} (f : α → β) : PForest α → PForest β
  | .nil => .nil
  | .cons t ts => .cons (PTree.map f t) (PForest.map f ts)
end

/-- The treedef of a pytree: its container structure with leaf data erased. -/
def treedef {α : Type} (t : PTree α) : PTree Unit := t.map (fun _ => ())

/-- The treedef of a forest. -/
def treedefF {α : Type} (f : PForest α) : PForest Unit :=
  PForest.map (fun _ => ()) f

mutual
/-- The leaf of a pytree at a path of child indices, when the path leads
exactly to a leaf. -/
def PTree.leafAt {α : Type} : PTree α → List ℕ → Option α
  | .leaf a, [] => some a
  | .leaf _, _ :: _ => none
  | .node _, [] => none
  | .node cs, i :: p => PForest.leafAtF cs i p
/-- The leaf of the i-th tree of a forest at a path. -/
def PForest.leafAtF {α : Type} : PForest α → ℕ → List ℕ → Option α
  | .nil, _, _ => none
  | .cons t _, 0, p => PTree.leafAt t p
  | .cons _ ts, i + 1, p => PForest.leafAtF ts i p
end

/-- The leaf values of a list of pytrees when all of them are leaves. -/
def leavesOfList {α : Type} : List (PTree α) → Option (List α)
  | [] => some []
  | PTree.leaf a :: rest => (leavesOfList rest).map (fun xs => a :: xs)
  | PTree.node _ :: _ => none

/-- The child forests of a list of pytrees when all of them are nodes. -/
def forestsOfList {α : Type} : List (PTree α) → Option (List (PForest α))
  | [] => some []
  | PTree.node cs :: rest => (forestsOfList rest).map (fun fs => cs :: fs)
  | PTree.leaf _ :: _ => none

/-- Split every forest of a list into its head tree and tail forest. -/
def headsTails {α : Type} :
    List (PForest α) → Option (List (PTree α) × List (PForest α))
  | [] => some ([], [])
  | PForest.nil :: _ => none
  | PForest.cons t ts :: rest =>
    (headsTails rest).map (fun p => (t :: p.1, ts :: p.2))

/-- Are all the forests of the list empty. -/
def allNil {α : Type} : List (PForest α) → Bool
  | [] => true
  | PForest.nil :: rest => allNil rest
  | PForest.cons _ _ :: _ => false

mutual
/-- Model of `jax.tree_map(_stack_pytrees, first, *rest)`: walk the structure of the
first tree and stack the corresponding leaves of all the trees into a new
leading axis, in input order; a structure mismatch is an error (`none`). -/
def stackT {α : Type} : PTree α → List (PTree α) → Option (PTree (List α))
  | .leaf a, rest =>
    match leavesOfList rest with
    | some xs => some (.leaf (a :: xs))
    | none => none
  | .node cs, rest =>
    match forestsOfList rest with
    | some fs =>
      match stackF cs fs with
      | some cs2 => some (.node cs2)
      | none => none
    | none => none
/-- Stack a forest against the corresponding forests of the other trees. -/
def stackF {α : Type} : PForest α → List (PForest α) → Option (PForest (List α))
  | .nil, rest => if allNil rest then some PForest.nil else none
  | .cons t ts, rest =>
    match headsTails rest with
    | some p =>
      match stackT t p.1, stackF ts p.2 with
      | some t2, some ts2 => some (.cons t2 ts2)
      | _, _ => none
    | none => none
end

/-- Model of `stack_pytrees(pytrees)`: `jax.tree_map(_stack_pytrees, *pytrees)` (an
empty argument list is an error). -/
def stack_pytrees {α : Type} : List (PTree α) → Option (PTree (List α))
  | [] => none
  | t :: rest => stackT t rest

/-- Sequence a list of options, keeping order. -/
def seqOpt {α : Type} : List (Option α) → Option (List α)
  | [] => some []
  | none :: _ => none
  | some a :: rest => (seqOpt rest).map (fun xs => a :: xs)

/-- A concrete pytree used to instantiate `stack_pytrees_spec`. -/
def spEx1 : PTree ℚ := .node (.cons (.leaf 1) (.cons (.leaf 2) .nil))

/-- A second pytree with the same treedef as `spEx1`. -/
def spEx2 : PTree ℚ := .node (.cons (.leaf 3) (.cons (.leaf 4) .nil))

/-! ## The integration loop (modelled from the spec)

The implementation of `diffeqsolve`, the solvers and the step-size
controllers is absent from the repository fragment (only
`test/test_integrate.py` exercises it), so the loop is modelled from the
specification, §4.3-§4.5, §6 and §7. -/
/-- Modelled from the spec (§4.4): the controller kinds the loop
distinguishes: `fixed` (ConstantStepSize / StepTo, never rejects a step) and
`adaptive` (PIDController, may reject a step and retry it with a smaller
step size). -/
inductive CtrlKind where
  | fixed
  | adaptive
  deriving DecidableEq

/-- Modelled from the spec (§4.5): the next time proposed from `t`: `t + dt`
clipped to the integration end `t1` in the direction of integration. -/
def nextTime (t t1 dt : ℚ) : ℚ :=
  if 0 < dt then min (t + dt) t1 else max (t + dt) t1

/-- Modelled from the spec (§4.3, §4.5, §7): the integration loop.  One
iteration attempts a solver step over `[t, nextTime t t1 dt]`; `none` is the
recoverable "implicit solve did not converge" signal.  On success the step
is accepted and `(t2, y2)` is committed to the trajectory.  On failure an
adaptive controller rejects the step and retries from the same `(t, y)` with
a halved step size, while under a fixed controller the failure is fatal.
Exhausting `fuel` before reaching `t1` is the fatal max-steps error. -/
def loop {σ : Type} (step : ℚ → ℚ → σ → Option σ) (ctrl : CtrlKind)
    (t1 : ℚ) : ℕ → ℚ → ℚ → σ → Except String (List (ℚ × σ))
  | 0, t, _, _ =>
    if t = t1 then Except.ok [] else Except.error ("max_steps exceeded")
  | fuel + 1, t, dt, y =>
    if t = t1 then Except.ok []
    else
      match step t (nextTime t t1 dt) y with
      | none =>
        match ctrl with
        | .fixed => Except.error ("Implicit solve did not converge")
        | .adaptive => loop step ctrl t1 fuel t (dt / 2) y
      | some y2 =>
        (loop step ctrl t1 fuel (nextTime t t1 dt) dt y2).map
          (fun l => (nextTime t t1 dt, y2) :: l)

/-- Modelled from the spec (§6, §7): constant-step `diffeqsolve`: validate
the initial step size, then run the loop from `t0`; the result is the
ordered list of accepted `(t, y)` pairs (the every-step save policy; the
other policies read off this trajectory). -/
def solveLoop {σ : Type} (step : ℚ → ℚ → σ → Option σ) (ctrl : CtrlKind)
    (t0 t1 dt : ℚ) (fuel : ℕ) (y0 : σ) : Except String (List (ℚ × σ)) :=
  if dt = 0 then Except.error ("dt0 must be nonzero")
  else loop step ctrl t1 fuel t0 dt y0

/-- Modelled from the spec (§4.3): the explicit Euler step for a scalar ODE
term `f`: `y1 = y0 + (t1 - t0) * f(t0, y0)`; explicit, so it never signals a
convergence failure. -/
def eulerStep (f : ℚ → ℚ → ℚ) : ℚ → ℚ → ℚ → Option ℚ :=
  fun a b y => some (y + (b - a) * f a y)

/-- The time-mirror of a solver: the same update read off at negated
times. -/
def mstep {σ : Type} (step : ℚ → ℚ → σ → Option σ) : ℚ → ℚ → σ → Option σ :=
  fun a b y => step (-a) (-b) y

/-- Negate the recorded times of a solve result, keeping the states. -/
def mirrorTraj {σ : Type} : Except String (List (ℚ × σ)) →
    Except String (List (ℚ × σ)) :=
  Except.map (List.map (fun p => (-p.1, p.2)))

/-- Modelled from the spec (§4.6): is the query time inside the (direction
agnostic) span of one accepted step. -/
def inSpan (ta tb tq : ℚ) : Bool :=
  decide (min ta tb ≤ tq) && decide (tq ≤ max ta tb)

/-- Modelled from the spec (§4.6): evaluate the dense output of a solve:
locate the accepted step whose span contains the query time and interpolate
linearly inside it (the dense scheme of the Euler family); a query outside
the solved span is a domain error (`none`). -/
def denseEval : ℚ → ℚ → List (ℚ × ℚ) → ℚ → Option ℚ
  | ta, ya, [], tq => if tq = ta then some ya else none
  | ta, ya, (tb, yb) :: traj, tq =>
    if inSpan ta tb tq then some (ya + (tq - ta) / (tb - ta) * (yb - ya))
    else denseEval tb yb traj tq

/-- Modelled from the spec (§8): the statically-determined step count of a
constant-step solve: `ceil(|t1 - t0| / |dt0|)`. -/
def stepCount (t0 t1 dt : ℚ) : ℕ := (Int.ceil (|t1 - t0| / |dt|)).toNat

/-- Modelled from the spec (§6, §9) and the behaviour pinned by
test_compile_time_steps: one scalar input of a solve as seen at trace time:
a compile-time constant, a traced (jit) run-time scalar, or a vmapped batch
of values. -/
inductive JaxIn where
  | static (q : ℚ)
  | traced (q : ℚ)
  | batched (qs : List ℚ)
  deriving DecidableEq

/-- Is the input a traced run-time scalar. -/
def JaxIn.isTraced : JaxIn → Bool
  | .traced _ => true
  | _ => false

/-- The batch size of the input, when it is batched. -/
def JaxIn.batchLen : JaxIn → Option ℕ
  | .batched qs => some qs.length
  | _ => none

/-- The value of the input for batch element `i` (static and traced values
broadcast across the batch). -/
def JaxIn.atIdx : JaxIn → ℕ → ℚ
  | .static q, _ => q
  | .traced q, _ => q
  | .batched qs, i => qs.getD i 0

/-- The common batch size of the three inputs, when any is batched (vmap
requires batched inputs to share their size). -/
def commonBatchLen (a b c : JaxIn) : Option ℕ :=
  match a.batchLen with
  | some n => some n
  | none =>
    match b.batchLen with
    | some n => some n
    | none => c.batchLen

/-- The reported `stats["compiled_num_steps"]` field. -/
inductive StepsReport where
  | unavailable
  | known (n : ℕ)
  | knownBatch (ns : List ℕ)
  deriving DecidableEq

/-- The maximum per-element step count across a batch of size `n`. -/
def batchMaxSteps (a b c : JaxIn) (n : ℕ) : ℕ :=
  ((List.range n).map
    (fun i => stepCount (a.atIdx i) (b.atIdx i) (c.atIdx i))).foldr max 0

/-- Modelled from the spec (§6, §9: "the exact compiled step count ...
only when step count is statically determinable") together with the
behaviour asserted by test_compile_time_steps lines 349-431: with any traced
(jit run-time) bound or step size the count is unavailable; with batched
(vmapped) inputs the loop's static bound — the maximum `ceil(|t1-t0|/|dt0|)`
across the batch — is reported for every batch element; otherwise the exact
`ceil(|t1-t0|/|dt0|)` is reported. -/
def compiledNumSteps (t0 t1 dt0 : JaxIn) : StepsReport :=
  if t0.isTraced || t1.isTraced || dt0.isTraced then .unavailable
  else
    match commonBatchLen t0 t1 dt0 with
    | none =>
      .known (stepCount (t0.atIdx 0) (t1.atIdx 0) (dt0.atIdx 0))
    | some n => .knownBatch (List.replicate n (batchMaxSteps t0 t1 dt0 n))

/-- Decidable equality of solve results, so that concrete solves can be
checked by evaluation. -/
instance exceptDecEq {e a : Type} [DecidableEq e] [DecidableEq a] :
    DecidableEq (Except e a)
  | .error e1, .error e2 =>
    if h : e1 = e2 then .isTrue (congrArg Except.error h)
    else .isFalse (fun hc => h (Except.error.inj hc))
  | .error _, .ok _ => .isFalse (fun hc => Except.noConfusion hc)
  | .ok _, .error _ => .isFalse (fun hc => Except.noConfusion hc)
  | .ok a1, .ok a2 =>
    if h : a1 = a2 then .isTrue (congrArg Except.ok h)
    else .isFalse (fun hc => h (Except.ok.inj hc))

mutual
/-- Zip two pytrees leafwise with a binary function; a structure mismatch is
an error (`none`), matching jax's tree-structure check. -/
def treeZip {α β γ : Type} (f : α → β → γ) :
    PTree α → PTree β → Option (PTree γ)
  | .leaf a, .leaf b => some (.leaf (f a b))
  | .node cs, .node ds =>
    match forestZip f cs ds with
    | some es => some (.node es)
    | none => none
  | _, _ => none
/-- Zip two forests leafwise. -/
def forestZip {α β γ : Type} (f : α → β → γ) :
    PForest α → PForest β → Option (PForest γ)
  | .nil, .nil => some PForest.nil
  | .cons t ts, .cons u us =>
    match treeZip f t u, forestZip f ts us with
    | some v, some vs => some (.cons v vs)
    | _, _ => none
  | .nil, .cons _ _ => none
  | .cons _ _, .nil => none
end

/-- Modelled from the spec (§4.3, §4.1): the Euler step on pytree state:
`y1 = y0 + dt * f(t0, y0)` leafwise; a vector field returning a mismatched
structure is the fatal structure-mismatch validation error. -/
def eulerTreeStep (f : ℚ → PTree ℚ → PTree ℚ) :
    ℚ → ℚ → PTree ℚ → Option (PTree ℚ) :=
  fun a b y => treeZip (fun u v => u + (b - a) * v) y (f a y)

/-- Initial pytree state for the structure-preservation witness. -/
def c6y0 : PTree ℚ := .node (.cons (.leaf 1) (.cons (.leaf 2) .nil))

/-- The state reached by the witness solve after each accepted step. -/
def c6y1 : PTree ℚ := .node (.cons (.leaf 0) (.cons (.leaf 0) .nil))

/-- The accepted-step trajectory of the witness solve. -/
def c6traj : List (ℚ × PTree ℚ) := [(1, c6y1), (2, c6y1)]

/-! ## Virtual Brownian Tree (modelled from the spec §4.2, §5)

The sampler's implementation is absent from the repository fragment; it is
modelled from the specification: a binary hierarchy over the global
interval, each node owning a seed derived deterministically from its
position, midpoint values generated by Brownian-bridge refinement from the
node's draw, optionally memoized.  The reproducibility claim is the
hyperproperty that the memoized sampler answers every interval query with
the value of the pure (recompute-everything) sampler, whatever queries were
issued before. -/
/-- Modelled from the spec (§4.2): the splittable PRNG: child seeds are a
deterministic function of the parent seed.  The concrete injection is
immaterial to reproducibility. -/
def prngSplit (s : ℕ) (b : Bool) : ℕ := 2 * s + (if b then 2 else 1)

/-- Modelled from the spec (§4.2): a node's Gaussian draw, a deterministic
function of its seed (integer-mixing model; the distribution is immaterial
to reproducibility). -/
def draw (s : ℕ) : ℚ :=
  (((s + 1) * 2654435761) % 4294967296 : ℕ) / 4294967296 - 1 / 2

/-- One node of the virtual Brownian tree: its seed, its span, and the
Brownian values at the two ends of the span. -/
structure BNode where
  seed : ℕ
  lo : ℚ
  hi : ℚ
  wlo : ℚ
  whi : ℚ

/-- The node's midpoint Brownian value: the Brownian-bridge conditional mean
(the average of the endpoint values) plus the node's own draw. -/
def midValue (nd : BNode) : ℚ := (nd.wlo + nd.whi) / 2 + draw nd.seed

/-- The child of `nd` covering the half `b` (false = left, true = right),
given the midpoint value `wm`. -/
def childNode (nd : BNode) (b : Bool) (wm : ℚ) : BNode :=
  if b then ⟨prngSplit nd.seed true, (nd.lo + nd.hi) / 2, nd.hi, wm, nd.whi⟩
  else ⟨prngSplit nd.seed false, nd.lo, (nd.lo + nd.hi) / 2, nd.wlo, wm⟩

/-- The node reached from `root` by the reversed descent path `p`
(`b :: q` is child `b` of the node at `q`), with every midpoint taken from
the deterministic draw. -/
def nodeAt (root : BNode) : List Bool → BNode
  | [] => root
  | b :: q => childNode (nodeAt root q) b (midValue (nodeAt root q))

/-- A memo cache is consistent when every cached midpoint equals the value
the pure deterministic recursion assigns to that node. -/
def Consistent (root : BNode) (cache : List (ℕ × ℚ)) : Prop :=
  ∀ (p : List Bool) (v : ℚ),
    cache.lookup (nodeAt root p).seed = some v →
    v = midValue (nodeAt root p)

/-- Modelled from the spec (§4.2): the pure reference evaluation of W(t):
recursive midpoint refinement down `depth` levels, then linear interpolation
within the leaf; every midpoint is recomputed from the deterministic
draw. -/
def evalW : ℕ → BNode → ℚ → ℚ
  | 0, nd, t => nd.wlo + (t - nd.lo) / (nd.hi - nd.lo) * (nd.whi - nd.wlo)
  | d + 1, nd, t =>
    let wm := midValue nd
    if t ≤ (nd.lo + nd.hi) / 2 then evalW d (childNode nd false wm) t
    else evalW d (childNode nd true wm) t

/-- The memoized evaluation: a node's midpoint is taken from the cache when
present, and computed from the draw and inserted when absent. -/
def evalWMemo : ℕ → BNode → List (ℕ × ℚ) → ℚ → ℚ × List (ℕ × ℚ)
  | 0, nd, cache, t =>
    (nd.wlo + (t - nd.lo) / (nd.hi - nd.lo) * (nd.whi - nd.wlo), cache)
  | d + 1, nd, cache, t =>
    match cache.lookup nd.seed with
    | some wm =>
      if t ≤ (nd.lo + nd.hi) / 2 then evalWMemo d (childNode nd false wm) cache t
      else evalWMemo d (childNode nd true wm) cache t
    | none =>
      let wm := midValue nd
      let cache2 := (nd.seed, wm) :: cache
      if t ≤ (nd.lo + nd.hi) / 2 then
        evalWMemo d (childNode nd false wm) cache2 t
      else evalWMemo d (childNode nd true wm) cache2 t

/-- Modelled from the spec (§4.2): the root of a virtual Brownian tree over
`[t0, t1]` with global seed `seed`: W(t0) = 0 and W(t1) drawn from the
seed. -/
def vbtRoot (seed : ℕ) (t0 t1 : ℚ) : BNode := ⟨seed, t0, t1, 0, draw seed⟩

/-- A memoized interval query: the increment W(b) − W(a) of the query
`(a, b)`, threading the cache through the two endpoint evaluations. -/
def vbtIncMemo (root : BNode) (d : ℕ) (cache : List (ℕ × ℚ)) (q : ℚ × ℚ) :
    ℚ × List (ℕ × ℚ) :=
  let r1 := evalWMemo d root cache q.1
  let r2 := evalWMemo d root r1.2 q.2
  (r2.1 - r1.1, r2.2)

/-- The pure reference increment of the query `(a, b)`. -/
def vbtIncPure (root : BNode) (d : ℕ) (q : ℚ × ℚ) : ℚ :=
  evalW d root q.2 - evalW d root q.1

/-- Run interval queries in order against one tree instance, threading the
memo cache, returning the answers. -/
def runQueriesFrom (root : BNode) (d : ℕ) :
    List (ℕ × ℚ) → List (ℚ × ℚ) → List ℚ
  | _, [] => []
  | cache, q :: qs =>
    (vbtIncMemo root d cache q).1 ::
      runQueriesFrom root d (vbtIncMemo root d cache q).2 qs

/-- Run interval queries from a fresh (empty-cache) tree instance. -/
def runQueries (root : BNode) (d : ℕ) (qs : List (ℚ × ℚ)) : List ℚ :=
  runQueriesFrom root d [] qs

theorem whereNaN_getD (last yi : Row) (c : ℕ) (hc : c < yi.length)
    (hc' : c < last.length) :
    (whereNaN last yi).getD c none =
      match yi.getD c none with
      | none => last.getD c none
      | some v => some v := by
  unfold whereNaN
  rw [List.getD_eq_getElem?_getD, List.getElem?_zipWith]
  rw [List.getElem?_eq_getElem hc', List.getElem?_eq_getElem hc]
  simp [List.getD_eq_getElem?_getD, List.getElem?_eq_getElem hc,
    List.getElem?_eq_getElem hc']

theorem whereNaN_length (last yi : Row) :
    (whereNaN last yi).length = min last.length yi.length := by
  simp [whereNaN]

/-- Projecting the 2-D scan to one channel gives the 1-D scan. -/
theorem scanOut_col (c m : ℕ) (hc : c < m) :
    ∀ (ys : List Row) (init : Row), init.length = m →
      (∀ r ∈ ys, r.length = m) →
      (scanOut ffScanBody init ys).map (fun r => r.getD c none) =
        scan1 (init.getD c none) (ys.map (fun r => r.getD c none)) := by
  intro ys
  induction ys with
  | nil => intro init _ _; rfl
  | cons y rest ih =>
    intro init hinit hrect
    have hy : y.length = m := hrect y (by simp)
    have hww : (whereNaN init y).length = m := by
      rw [whereNaN_length, hinit, hy]; simp
    simp only [scanOut, ffScanBody, scan1, List.map_cons]
    have hcol := whereNaN_getD init y c (by omega) (by omega)
    rw [ih (whereNaN init y) hww (fun r hr => hrect r (by simp [hr])), hcol]

/-- Entry `i` of the 1-D scan: the last non-NaN value of the processed prefix,
falling back on the initial carry when the whole prefix is NaN. -/
theorem scan1_get (xs : List FVal) :
    ∀ (carry : FVal) (i : ℕ), i < xs.length →
      (scan1 carry xs).getD i none =
        match lastSome (xs.take (i + 1)) with
        | some v => some v
        | none => carry := by
  induction xs with
  | nil => intro carry i hi; simp at hi
  | cons x rest ih =>
    intro carry i hi
    match i with
    | 0 =>
      simp only [scan1, List.take, lastSome, List.getD_cons_zero]
      cases x <;> rfl
    | Nat.succ j =>
      have hj : j < rest.length := by simpa using hi
      simp only [scan1, List.getD_cons_succ, List.take]
      rw [ih _ j hj]
      cases hx : x <;> cases hls : lastSome (rest.take (j + 1)) <;>
        simp [lastSome, hls]

theorem scan1_length (xs : List FVal) :
    ∀ carry, (scan1 carry xs).length = xs.length := by
  induction xs with
  | nil => intro carry; rfl
  | cons x rest ih => intro carry; simp [scan1, ih]

/-- If the last non-NaN entry of a nonempty list is nothing, its head is
nothing. -/
theorem lastSome_cons_none {x : FVal} {xs : List FVal}
    (h : lastSome (x :: xs) = none) : x = none := by
  unfold lastSome at h
  cases hls : lastSome xs with
  | none => rw [hls] at h; exact h
  | some v => rw [hls] at h; exact absurd h (by simp)

theorem lastSome_cons (x : FVal) (xs : List FVal) :
    lastSome (x :: xs) =
      match lastSome xs with
      | some v => some v
      | none => x := rfl

theorem lastSome_append_single (xs : List FVal) (x : FVal) :
    lastSome (xs ++ [x]) =
      match x with
      | some v => some v
      | none => lastSome xs := by
  induction xs with
  | nil => cases x <;> rfl
  | cons y ys ih =>
    rw [List.cons_append, lastSome_cons, ih, lastSome_cons]
    cases x <;> cases lastSome ys <;> rfl

/-- Indexing a column projection. -/
theorem getD_map_col (l : List Row) (c : ℕ) :
    ∀ i, i < l.length →
      (l.map (fun r => r.getD c none)).getD i none = (l.getD i []).getD c none
    := by
  induction l with
  | nil => intro i hi; simp at hi
  | cons r rs ih =>
    intro i hi
    cases i with
    | zero => rfl
    | succ j => exact ih j (by simpa using hi)

theorem lastSome_take_succ (l : List FVal) (i : ℕ) (hi : i < l.length) :
    lastSome (l.take (i + 1)) =
      match l.getD i none with
      | some v => some v
      | none => lastSome (l.take i) := by
  rw [List.take_succ, List.getElem?_eq_getElem hi]
  simp only [Option.toList]
  rw [lastSome_append_single, List.getD_eq_getElem?_getD,
    List.getElem?_eq_getElem hi]
  rfl

theorem scanOut_length (ys : List Row) :
    ∀ init, (scanOut ffScanBody init ys).length = ys.length := by
  induction ys with
  | nil => intro init; rfl
  | cons y rest ih => intro init; simp [scanOut, ih]

theorem whereNaN_self (y : Row) : whereNaN y y = y := by
  induction y with
  | nil => rfl
  | cons x xs ih =>
    cases x <;> simp only [whereNaN, List.zipWith_cons_cons] <;>
      exact congrArg _ ih

/-- C8: `fill_forward` fills NaNs forward per channel.  For a rectangular
array `ys` (rows of length `m`): the first row is returned unchanged, and
entry `(i, c)` of the result equals `ys[i][c]` when that entry is not NaN,
and otherwise the most recent non-NaN entry `ys[j][c]` with `j < i` (staying
NaN when every earlier entry of the channel is NaN). -/
theorem fill_forward_spec (ys : List Row) (m : ℕ)
    (hrect : ∀ r ∈ ys, r.length = m) :
    (fill_forward ys).getD 0 [] = ys.getD 0 [] ∧
    ∀ i c, i < ys.length → c < m →
      ((fill_forward ys).getD i []).getD c none =
        match (ys.getD i []).getD c none with
        | some v => some v
        | none => lastSome ((ys.take i).map (fun r => r.getD c none)) := by
  match ys with
  | [] => exact ⟨rfl, fun i c hi _ => absurd hi (by simp)⟩
  | y0 :: rest =>
    have hy0 : y0.length = m := hrect y0 (by simp)
    constructor
    · show (scanOut ffScanBody y0 (y0 :: rest)).getD 0 [] = y0
      simp [scanOut, ffScanBody, whereNaN_self]
    · intro i c hi hc
      have hcols := scanOut_col c m hc (y0 :: rest) y0 hy0 hrect
      have hlen : (scanOut ffScanBody y0 (y0 :: rest)).length =
          (y0 :: rest).length := scanOut_length _ _
      set col : List FVal := (y0 :: rest).map (fun r => r.getD c none) with hcol
      have hclen : col.length = (y0 :: rest).length := by simp [hcol]
      -- project the indexed entry through the column map
      have hproj : ((fill_forward (y0 :: rest)).getD i []).getD c none =
          ((scanOut ffScanBody y0 (y0 :: rest)).map
            (fun r => r.getD c none)).getD i none := by
        rw [getD_map_col _ c i (by rw [hlen]; exact hi)]
        rfl
      rw [hproj, hcols]
      have hicol : i < col.length := by rw [hclen]; exact hi
      rw [scan1_get col (y0.getD c none) i hicol]
      rw [lastSome_take_succ col i hicol]
      have hcoli : col.getD i none = ((y0 :: rest).getD i []).getD c none := by
        rw [hcol]; exact getD_map_col _ c i hi
      have htake : col.take i = ((y0 :: rest).take i).map
          (fun r => r.getD c none) := by rw [hcol, List.map_take]
      rw [hcoli, htake]
      cases hxi : ((y0 :: rest).getD i []).getD c none with
      | some v => rfl
      | none =>
        cases hls : lastSome (((y0 :: rest).take i).map fun r => r.getD c none)
          with
        | some v => rfl
        | none =>
          show y0.getD c none = none
          cases i with
          | zero => simpa using hxi
          | succ j =>
            have hexp : ((y0 :: rest).take (j + 1)).map
                (fun r => r.getD c none) =
                y0.getD c none :: (rest.take j).map (fun r => r.getD c none) :=
              by simp [List.take_succ_cons]
            rw [hexp] at hls
            exact lastSome_cons_none hls

/-- Witness: `fill_forward_spec` evaluated on `ffExample` at entry (2, 0). -/
theorem fill_forward_spec_witness :
    ((∀ r ∈ ffExample, r.length = 2) ∧
      (fill_forward ffExample).getD 0 [] = ffExample.getD 0 []) ∧
    ((fill_forward ffExample).getD 2 []).getD 0 none =
      match (ffExample.getD 2 []).getD 0 none with
      | some v => some v
      | none => lastSome ((ffExample.take 2).map (fun r => r.getD 0 none)) :=
  ⟨⟨by decide, (fill_forward_spec ffExample 2 (by decide)).1⟩,
    (fill_forward_spec ffExample 2 (by decide)).2 2 0 (by decide) (by decide)⟩

theorem containerLoop_spec {V : Type} :
    ∀ (d : ClassDict V) (i : ℕ), (d.map Prod.fst).Nodup →
      ∀ j (hj : j < (nonDunder d).length),
        (containerLoop d i).1.lookup ((nonDunder d).get ⟨j, hj⟩).1 =
            some (Sum.inr (i + j)) ∧
          (containerLoop d i).2.lookup (i + j) =
            some ((nonDunder d).get ⟨j, hj⟩).2 := by
  intro d
  induction d with
  | nil => intro i _ j hj; simp [nonDunder] at hj
  | cons e rest ih =>
    intro i hnd j hj
    obtain ⟨k, v⟩ := e
    have hnd2 : (k :: rest.map Prod.fst).Nodup := by
      rw [List.map_cons] at hnd; exact hnd
    have hk : k ∉ rest.map Prod.fst := (List.nodup_cons.mp hnd2).1
    have hnd' : (rest.map Prod.fst).Nodup := (List.nodup_cons.mp hnd2).2
    by_cases hdk : isDunder k
    · -- dunder entry: kept verbatim, not tagged
      have hnd_eq : nonDunder ((k, v) :: rest) = nonDunder rest := by
        simp [nonDunder, List.filter_cons, hdk]
      have hj' : j < (nonDunder rest).length := by
        have := hj; rw [hnd_eq] at this; exact this
      have hget : ((nonDunder ((k, v) :: rest)).get ⟨j, hj⟩) =
          ((nonDunder rest).get ⟨j, hj'⟩) := by
        rw [List.get_of_eq hnd_eq]
      have hmem : ((nonDunder rest).get ⟨j, hj'⟩) ∈ nonDunder rest :=
        List.get_mem _ _ _
      have hkey : ((nonDunder rest).get ⟨j, hj'⟩).1 ∈ rest.map Prod.fst := by
        refine List.mem_map_of_mem Prod.fst ?_
        exact List.mem_of_mem_filter hmem
      have hne : k ≠ ((nonDunder rest).get ⟨j, hj'⟩).1 := by
        intro h; rw [h] at hk; exact hk hkey
      have hrec := ih i hnd' j hj'
      constructor
      · rw [hget]
        simp only [containerLoop, if_pos hdk]
        simp only [List.lookup_cons, beq_false_of_ne (Ne.symm hne), cond_false]
        exact hrec.1
      · rw [hget]
        simp only [containerLoop, if_pos hdk]
        exact hrec.2
    · -- non-dunder entry: tagged with the counter
      have hnd_eq : nonDunder ((k, v) :: rest) = (k, v) :: nonDunder rest := by
        simp [nonDunder, List.filter_cons, hdk]
      cases j with
      | zero =>
        have hget : ((nonDunder ((k, v) :: rest)).get ⟨0, hj⟩) = (k, v) := by
          rw [List.get_of_eq hnd_eq]; rfl
        constructor
        · rw [hget]
          simp [containerLoop, if_neg hdk, List.lookup_cons]
        · rw [hget]
          simp [containerLoop, if_neg hdk, List.lookup_cons]
      | succ j' =>
        have hj' : j' < (nonDunder rest).length := by
          have := hj
          rw [hnd_eq] at this
          simpa using this
        have hget : ((nonDunder ((k, v) :: rest)).get ⟨j' + 1, hj⟩) =
            ((nonDunder rest).get ⟨j', hj'⟩) := by
          rw [List.get_of_eq hnd_eq]; rfl
        have hmem : ((nonDunder rest).get ⟨j', hj'⟩) ∈ nonDunder rest :=
          List.get_mem _ _ _
        have hkey : ((nonDunder rest).get ⟨j', hj'⟩).1 ∈ rest.map Prod.fst := by
          refine List.mem_map_of_mem Prod.fst ?_
          exact List.mem_of_mem_filter hmem
        have hne : k ≠ ((nonDunder rest).get ⟨j', hj'⟩).1 := by
          intro h; rw [h] at hk; exact hk hkey
        have hrec := ih (i + 1) hnd' j' hj'
        have harith : i + 1 + j' = i + (j' + 1) := by omega
        constructor
        · rw [hget]
          simp only [containerLoop, if_neg hdk]
          simp only [List.lookup_cons, beq_false_of_ne (Ne.symm hne),
            cond_false]
          rw [← harith]
          exact hrec.1
        · rw [hget]
          simp only [containerLoop, if_neg hdk]
          simp only [List.lookup_cons,
            beq_false_of_ne (by omega : i + (j' + 1) ≠ i), cond_false]
          rw [← harith]
          exact hrec.2

/-- C9: ContainerMeta assigns stable sequential tags with a consistent
reverse lookup: for a class body with unique keys (and no declared
`_reverse_lookup`, which `__new__` asserts against), the j-th non-dunder
attribute, in declaration order, is rebound to the tag `j`, and indexing the
class with that tag returns the originally declared value, so the round trip
`cls[cls.k] = v` holds for every non-dunder `(k, v)`. -/
theorem containerMeta_spec {V : Type} (d : ClassDict V)
    (hkeys : (d.map Prod.fst).Nodup)
    (_hrl : ("_reverse_lookup").toList ∉ d.map Prod.fst) :
    ∀ j (hj : j < (nonDunder d).length),
      containerAttr d ((nonDunder d).get ⟨j, hj⟩).1 = some (Sum.inr j) ∧
      containerGetitem d j = some ((nonDunder d).get ⟨j, hj⟩).2 := by
  intro j hj
  have h := containerLoop_spec d 0 hkeys j hj
  simpa [containerAttr, containerGetitem, containerNew] using h

/-- Witness: the round trip on `cmExample`, attribute "beta" (tag 1). -/
theorem containerMeta_spec_witness :
    containerAttr cmExample ((nonDunder cmExample).get ⟨1, by decide⟩).1 =
        some (Sum.inr 1) ∧
      containerGetitem cmExample 1 =
        some ((nonDunder cmExample).get ⟨1, by decide⟩).2 :=
  containerMeta_spec cmExample (by decide) (by decide) 1 (by decide)

theorem treedef_leaf_inv {α : Type} {u : PTree α} (h : treedef u = .leaf ()) :
    ∃ a, u = .leaf a := by
  cases u with
  | leaf a => exact ⟨a, rfl⟩
  | node cs => simp [treedef, PTree.map] at h

theorem treedef_node_inv {α : Type} {u : PTree α} {g : PForest Unit}
    (h : treedef u = .node g) : ∃ cs, u = .node cs ∧ treedefF cs = g := by
  cases u with
  | leaf a => simp [treedef, PTree.map] at h
  | node cs =>
    refine ⟨cs, rfl, ?_⟩
    simp only [treedef, PTree.map] at h
    injection h

theorem treedefF_nil_inv {α : Type} {f : PForest α} (h : treedefF f = .nil) :
    f = .nil := by
  cases f with
  | nil => rfl
  | cons t ts => simp [treedefF, PForest.map] at h

theorem treedefF_cons_inv {α : Type} {f : PForest α} {td : PTree Unit}
    {tf : PForest Unit} (h : treedefF f = .cons td tf) :
    ∃ t ts, f = .cons t ts ∧ treedef t = td ∧ treedefF ts = tf := by
  cases f with
  | nil => simp [treedefF, PForest.map] at h
  | cons t ts =>
    simp only [treedefF, PForest.map] at h
    injection h with h1 h2
    exact ⟨t, ts, rfl, h1, h2⟩

theorem leavesOfList_of_leaves {α : Type} :
    ∀ rest : List (PTree α), (∀ u ∈ rest, treedef u = .leaf ()) →
      ∃ xs, leavesOfList rest = some xs ∧ rest = xs.map PTree.leaf := by
  intro rest
  induction rest with
  | nil => intro _; exact ⟨[], rfl, rfl⟩
  | cons u us ih =>
    intro h
    obtain ⟨a, rfl⟩ := treedef_leaf_inv (h u (by simp))
    obtain ⟨xs, hx, hrest⟩ := ih (fun v hv => h v (by simp [hv]))
    exact ⟨a :: xs, by simp [leavesOfList, hx], by simp [hrest]⟩

theorem forestsOfList_of_nodes {α : Type} {g : PForest Unit} :
    ∀ rest : List (PTree α), (∀ u ∈ rest, treedef u = .node g) →
      ∃ fs, forestsOfList rest = some fs ∧ rest = fs.map PTree.node ∧
        ∀ f ∈ fs, treedefF f = g := by
  intro rest
  induction rest with
  | nil => intro _; exact ⟨[], rfl, rfl, by intro f hf; simp at hf⟩
  | cons u us ih =>
    intro h
    obtain ⟨cs, rfl, hcs⟩ := treedef_node_inv (h u (by simp))
    obtain ⟨fs, hx, hrest, hall⟩ := ih (fun v hv => h v (by simp [hv]))
    refine ⟨cs :: fs, by simp [forestsOfList, hx], by simp [hrest], ?_⟩
    intro f hf
    rcases List.mem_cons.mp hf with h1 | h2
    · rw [h1]; exact hcs
    · exact hall f h2

theorem headsTails_of_cons {α : Type} {td : PTree Unit} {tf : PForest Unit} :
    ∀ fs : List (PForest α), (∀ f ∈ fs, treedefF f = .cons td tf) →
      ∃ hs ts, headsTails fs = some (hs, ts) ∧
        fs = List.zipWith PForest.cons hs ts ∧ hs.length = ts.length ∧
        (∀ h ∈ hs, treedef h = td) ∧ (∀ t ∈ ts, treedefF t = tf) := by
  intro fs
  induction fs with
  | nil =>
    intro _
    exact ⟨[], [], rfl, rfl, rfl, by intro h hh; simp at hh,
      by intro t ht; simp at ht⟩
  | cons f fs2 ih =>
    intro h
    obtain ⟨t, ts, rfl, htd, htf⟩ := treedefF_cons_inv (h f (by simp))
    obtain ⟨hs, tls, hx, hzip, hlen, hallh, hallt⟩ :=
      ih (fun v hv => h v (by simp [hv]))
    refine ⟨t :: hs, ts :: tls, by simp [headsTails, hx], by simp [hzip],
      by simp [hlen], ?_, ?_⟩
    · intro h2 hh
      rcases List.mem_cons.mp hh with h1 | h1
      · rw [h1]; exact htd
      · exact hallh h2 h1
    · intro t2 ht
      rcases List.mem_cons.mp ht with h1 | h1
      · rw [h1]; exact htf
      · exact hallt t2 h1

theorem allNil_of_nil {α : Type} :
    ∀ fs : List (PForest α), (∀ f ∈ fs, treedefF f = .nil) →
      allNil fs = true := by
  intro fs
  induction fs with
  | nil => intro _; rfl
  | cons f fs2 ih =>
    intro h
    rw [treedefF_nil_inv (h f (by simp))]
    exact ih (fun v hv => h v (by simp [hv]))

theorem seqOpt_map_some {α : Type} :
    ∀ xs : List α, seqOpt (xs.map some) = some xs := by
  intro xs
  induction xs with
  | nil => rfl
  | cons a rest ih => simp [seqOpt, ih]

theorem seqOpt_length {α : Type} :
    ∀ (l : List (Option α)) (xs : List α), seqOpt l = some xs →
      xs.length = l.length := by
  intro l
  induction l with
  | nil => intro xs h; simp [seqOpt] at h; simp [← h]
  | cons o rest ih =>
    intro xs h
    cases o with
    | none => simp [seqOpt] at h
    | some a =>
      simp only [seqOpt] at h
      cases hr : seqOpt rest with
      | none => rw [hr] at h; simp at h
      | some ys =>
        rw [hr] at h
        have hxs : a :: ys = xs := by simpa using h
        rw [← hxs]
        simp [ih ys hr]

theorem zip_cons_leafAt_zero {α : Type} (p : List ℕ) :
    ∀ (hs : List (PTree α)) (ts : List (PForest α)), hs.length = ts.length →
      (List.zipWith PForest.cons hs ts).map (fun g => g.leafAtF 0 p) =
        hs.map (fun h => h.leafAt p) := by
  intro hs
  induction hs with
  | nil => intro ts _; simp
  | cons h hs2 ih =>
    intro ts hlen
    cases ts with
    | nil => simp at hlen
    | cons t ts2 =>
      simp only [List.zipWith_cons_cons, List.map_cons]
      rw [ih ts2 (by simpa using hlen)]
      rfl

theorem zip_cons_leafAt_succ {α : Type} (p : List ℕ) (i : ℕ) :
    ∀ (hs : List (PTree α)) (ts : List (PForest α)), hs.length = ts.length →
      (List.zipWith PForest.cons hs ts).map (fun g => g.leafAtF (i + 1) p) =
        ts.map (fun t => t.leafAtF i p) := by
  intro hs
  induction hs with
  | nil =>
    intro ts hlen
    cases ts with
    | nil => simp
    | cons t ts2 => simp at hlen
  | cons h hs2 ih =>
    intro ts hlen
    cases ts with
    | nil => simp at hlen
    | cons t ts2 =>
      simp only [List.zipWith_cons_cons, List.map_cons]
      rw [ih ts2 (by simpa using hlen)]
      rfl

mutual
theorem stackT_spec {α : Type} : ∀ (t : PTree α) (rest : List (PTree α)),
    (∀ u ∈ rest, treedef u = treedef t) →
    ∃ r, stackT t rest = some r ∧ treedef r = treedef t ∧
      ∀ p, r.leafAt p = seqOpt ((t :: rest).map (fun u => u.leafAt p))
  | .leaf a, rest => by
    intro h
    obtain ⟨xs, hx, rfl⟩ := leavesOfList_of_leaves rest
      (by intro u hu; simpa [treedef, PTree.map] using h u hu)
    refine ⟨.leaf (a :: xs), by simp [stackT, hx], rfl, ?_⟩
    intro p
    cases p with
    | nil =>
      simp only [PTree.leafAt, List.map_cons, List.map_map]
      have hmm : ((fun u => PTree.leafAt u ([] : List ℕ)) ∘ PTree.leaf) =
          (some : α → Option α) := by
        funext x; rfl
      rw [hmm]
      simp [seqOpt, seqOpt_map_some]
    | cons i p2 => rfl
  | .node cs, rest => by
    intro h
    obtain ⟨fs, hx, rfl, hall⟩ := forestsOfList_of_nodes rest
      (by intro u hu; simpa [treedef, PTree.map] using h u hu)
    obtain ⟨rf, hrf, hrtd, hrleaf⟩ := stackF_spec cs fs hall
    refine ⟨.node rf, by simp [stackT, hx, hrf], ?_, ?_⟩
    · simp only [treedef, PTree.map]
      exact congrArg PTree.node hrtd
    · intro p
      cases p with
      | nil => rfl
      | cons i p2 =>
        simp only [PTree.leafAt, List.map_cons, List.map_map]
        rw [hrleaf i p2]
        rfl
theorem stackF_spec {α : Type} : ∀ (cs : PForest α) (fs : List (PForest α)),
    (∀ f ∈ fs, treedefF f = treedefF cs) →
    ∃ r, stackF cs fs = some r ∧ treedefF r = treedefF cs ∧
      ∀ i p, r.leafAtF i p = seqOpt ((cs :: fs).map (fun g => g.leafAtF i p))
  | .nil, fs => by
    intro h
    have hnil : allNil fs = true := allNil_of_nil fs
      (by intro f hf; simpa [treedefF, PForest.map] using h f hf)
    refine ⟨.nil, by simp [stackF, hnil], rfl, ?_⟩
    intro i p
    simp only [PForest.leafAtF, List.map_cons]
    rfl
  | .cons t ts, fs => by
    intro h
    obtain ⟨hs, tls, hx, rfl, hlen, hallh, hallt⟩ := headsTails_of_cons fs
      (by intro f hf; simpa [treedefF, PForest.map] using h f hf)
    obtain ⟨rt, hrt, hrttd, hrtleaf⟩ := stackT_spec t hs hallh
    obtain ⟨rf, hrf, hrftd, hrfleaf⟩ := stackF_spec ts tls hallt
    refine ⟨.cons rt rf, by simp [stackF, hx, hrt, hrf], ?_, ?_⟩
    · show treedefF (.cons rt rf) = treedefF (.cons t ts)
      simp only [treedefF, PForest.map]
      rw [show PTree.map (fun x => ()) rt = PTree.map (fun x => ()) t from
        hrttd]
      rw [show PForest.map (fun x => ()) rf = PForest.map (fun x => ()) ts from
        hrftd]
    · intro i p
      cases i with
      | zero =>
        simp only [PForest.leafAtF, List.map_cons]
        rw [hrtleaf p, zip_cons_leafAt_zero p hs tls hlen]
        rfl
      | succ i2 =>
        simp only [PForest.leafAtF, List.map_cons]
        rw [hrfleaf i2 p, zip_cons_leafAt_succ p i2 hs tls hlen]
        rfl
end

/-- C10: `stack_pytrees` preserves structure while stacking leaves: on a
nonempty list of pytrees sharing one treedef it returns a pytree with that
same treedef in which the leaf at every path is the list of the inputs'
leaves at that path, in input order, of length the number of inputs. -/
theorem stack_pytrees_spec {α : Type} (t : PTree α) (rest : List (PTree α))
    (h : ∀ u ∈ t :: rest, treedef u = treedef t) :
    ∃ r, stack_pytrees (t :: rest) = some r ∧ treedef r = treedef t ∧
      (∀ p, r.leafAt p = seqOpt ((t :: rest).map (fun u => u.leafAt p))) ∧
      ∀ p xs, r.leafAt p = some xs → xs.length = (t :: rest).length := by
  obtain ⟨r, hr, htd, hleaf⟩ := stackT_spec t rest
    (fun u hu => h u (by simp [hu]))
  refine ⟨r, hr, htd, hleaf, ?_⟩
  intro p xs hxs
  rw [hleaf p] at hxs
  have hlen := seqOpt_length _ _ hxs
  simpa using hlen

/-- Witness: `stack_pytrees_spec` on the pair `[spEx1, spEx2]`. -/
theorem stack_pytrees_spec_witness :
    (∀ u ∈ [spEx1, spEx2], treedef u = treedef spEx1) ∧
    ∃ r, stack_pytrees [spEx1, spEx2] = some r ∧ treedef r = treedef spEx1 ∧
      (∀ p, r.leafAt p = seqOpt ([spEx1, spEx2].map (fun u => u.leafAt p))) ∧
      ∀ p xs, r.leafAt p = some xs → xs.length = ([spEx1, spEx2]).length :=
  ⟨by decide, stack_pytrees_spec spEx1 [spEx2] (by decide)⟩

theorem nextTime_neg (t t1 dt : ℚ) (hdt : dt ≠ 0) :
    nextTime (-t) (-t1) (-dt) = -(nextTime t t1 dt) := by
  unfold nextTime
  rcases lt_trichotomy 0 dt with h | h | h
  · rw [if_pos h, if_neg (by linarith : ¬ (0 : ℚ) < -dt)]
    rw [show -t + -dt = -(t + dt) by ring]
    exact max_neg_neg (t + dt) t1
  · exact absurd h.symm hdt
  · rw [if_neg (by linarith : ¬ (0 : ℚ) < dt),
      if_pos (by linarith : (0 : ℚ) < -dt)]
    rw [show -t + -dt = -(t + dt) by ring]
    exact min_neg_neg (t + dt) t1

theorem loop_mirror {σ : Type} (step : ℚ → ℚ → σ → Option σ)
    (ctrl : CtrlKind) (t1 : ℚ) :
    ∀ (fuel : ℕ) (t dt : ℚ) (y : σ), dt ≠ 0 →
      loop (mstep step) ctrl (-t1) fuel (-t) (-dt) y =
        mirrorTraj (loop step ctrl t1 fuel t dt y) := by
  intro fuel
  induction fuel with
  | zero =>
    intro t dt y _
    by_cases ht : t = t1
    · simp only [loop, if_pos (show -t = -t1 by rw [ht]), if_pos ht]; rfl
    · have hnt : -t ≠ -t1 := fun hc => ht (neg_inj.mp hc)
      simp only [loop, if_neg hnt, if_neg ht]; rfl
  | succ n ih =>
    intro t dt y hdt
    by_cases ht : t = t1
    · simp only [loop, if_pos (show -t = -t1 by rw [ht]), if_pos ht]; rfl
    · have hnt : -t ≠ -t1 := fun hc => ht (neg_inj.mp hc)
      simp only [loop, if_neg hnt, if_neg ht]
      rw [nextTime_neg t t1 dt hdt]
      have hms : mstep step (-t) (-(nextTime t t1 dt)) y =
          step t (nextTime t t1 dt) y := by
        simp [mstep]
      rw [hms]
      cases hstep : step t (nextTime t t1 dt) y with
      | none =>
        cases ctrl with
        | fixed => rfl
        | adaptive =>
          have h2 : -dt / 2 = -(dt / 2) := by ring
          rw [h2]
          exact ih t (dt / 2) y (div_ne_zero hdt two_ne_zero)
      | some y2 =>
        dsimp only
        rw [ih (nextTime t t1 dt) dt y2 hdt]
        cases loop step ctrl t1 n (nextTime t t1 dt) dt y2 with
        | error e => rfl
        | ok l => rfl

theorem solveLoop_mirror {σ : Type} (step : ℚ → ℚ → σ → Option σ)
    (ctrl : CtrlKind) (t0 t1 dt : ℚ) (fuel : ℕ) (y0 : σ) :
    solveLoop (mstep step) ctrl (-t0) (-t1) (-dt) fuel y0 =
      mirrorTraj (solveLoop step ctrl t0 t1 dt fuel y0) := by
  by_cases hdt : dt = 0
  · simp only [solveLoop, hdt, neg_zero, if_pos rfl]; rfl
  · simp only [solveLoop, if_neg hdt, if_neg (neg_ne_zero.mpr hdt)]
    exact loop_mirror step ctrl t1 fuel t0 dt y0 hdt

theorem inSpan_neg (ta tb tq : ℚ) :
    inSpan (-ta) (-tb) (-tq) = inSpan ta tb tq := by
  unfold inSpan
  rw [min_neg_neg, max_neg_neg]
  have h1 : decide (-(max ta tb) ≤ -tq) = decide (tq ≤ max ta tb) :=
    decide_eq_decide.mpr (by constructor <;> intro h <;> linarith)
  have h2 : decide (-tq ≤ -(min ta tb)) = decide (min ta tb ≤ tq) :=
    decide_eq_decide.mpr (by constructor <;> intro h <;> linarith)
  rw [h1, h2, Bool.and_comm]

theorem denseEval_mirror (traj : List (ℚ × ℚ)) :
    ∀ (ta ya tq : ℚ),
      denseEval (-ta) ya (traj.map (fun p => (-p.1, p.2))) (-tq) =
        denseEval ta ya traj tq := by
  induction traj with
  | nil =>
    intro ta ya tq
    simp only [List.map_nil, denseEval]
    by_cases h : tq = ta
    · rw [if_pos (by rw [h]), if_pos h]
    · rw [if_neg (fun hc => h (neg_inj.mp hc)), if_neg h]
  | cons e rest ih =>
    intro ta ya tq
    obtain ⟨tb, yb⟩ := e
    simp only [List.map_cons, denseEval]
    rw [inSpan_neg]
    by_cases h : inSpan ta tb tq
    · rw [if_pos h, if_pos h]
      have hr : (-tq - -ta) / (-tb - -ta) = (tq - ta) / (tb - ta) := by
        rw [show -tq - -ta = -(tq - ta) by ring,
          show -tb - -ta = -(tb - ta) by ring, neg_div_neg_eq]
      rw [hr]
    · rw [if_neg h, if_neg h]
      exact ih tb yb tq

theorem loop_at_end {σ : Type} (step : ℚ → ℚ → σ → Option σ)
    (ctrl : CtrlKind) (t1 dt : ℚ) (y : σ) :
    ∀ fuel, loop step ctrl t1 fuel t1 dt y = Except.ok [] := by
  intro fuel
  cases fuel <;> simp [loop]

theorem nextTime_clip (t t1 dt : ℚ) (hdt : 0 < dt) (h : t1 ≤ t + dt) :
    nextTime t t1 dt = t1 := by
  unfold nextTime
  rw [if_pos hdt]
  exact min_eq_right h

theorem nextTime_step (t t1 dt : ℚ) (hdt : 0 < dt) (h : t + dt ≤ t1) :
    nextTime t t1 dt = t + dt := by
  unfold nextTime
  rw [if_pos hdt]
  exact min_eq_left h

theorem loop_count {σ : Type} (step : ℚ → ℚ → σ → Option σ) (Inv : σ → Prop)
    (hstep : ∀ a b y, Inv y → ∃ y2, step a b y = some y2 ∧ Inv y2)
    (ctrl : CtrlKind) (t1 dt : ℚ) (hdt : 0 < dt) :
    ∀ (fuel : ℕ) (t : ℚ) (y : σ), Inv y → t ≤ t1 →
      (Int.ceil ((t1 - t) / dt)).toNat ≤ fuel →
      ∃ traj, loop step ctrl t1 fuel t dt y = Except.ok traj ∧
        traj.length = (Int.ceil ((t1 - t) / dt)).toNat ∧
        ∀ e ∈ traj, Inv e.2 := by
  intro fuel
  induction fuel with
  | zero =>
    intro t y hy hle hfuel
    have hc0 : Int.ceil ((t1 - t) / dt) ≤ 0 := by omega
    have hx0 : (t1 - t) / dt ≤ 0 := by
      have h := Int.ceil_le.mp hc0
      simpa using h
    have ht1 : t1 ≤ t := by
      by_contra hcon
      push_neg at hcon
      have : 0 < (t1 - t) / dt := div_pos (by linarith) hdt
      linarith
    have heq : t = t1 := le_antisymm hle ht1
    subst heq
    refine ⟨[], by simp [loop], ?_, by intro e he; simp at he⟩
    simp
  | succ n ih =>
    intro t y hy hle hfuel
    by_cases ht : t = t1
    · subst ht
      refine ⟨[], loop_at_end step ctrl t dt y (n + 1), ?_,
        by intro e he; simp at he⟩
      simp
    · have htlt : t < t1 := lt_of_le_of_ne hle ht
      have hcpos : 0 < Int.ceil ((t1 - t) / dt) :=
        Int.ceil_pos.mpr (div_pos (by linarith) hdt)
      obtain ⟨y2, hy2, hInv2⟩ := hstep t (nextTime t t1 dt) y hy
      by_cases hclip : t1 ≤ t + dt
      · -- the final step, clipped to t1
        have hnt : nextTime t t1 dt = t1 := nextTime_clip t t1 dt hdt hclip
        have hc1 : Int.ceil ((t1 - t) / dt) ≤ 1 := by
          apply Int.ceil_le.mpr
          push_cast
          rw [div_le_one hdt]
          linarith
        have hceq : (Int.ceil ((t1 - t) / dt)).toNat = 1 := by omega
        refine ⟨[(t1, y2)], ?_, by simp [hceq], ?_⟩
        · simp only [loop, if_neg ht]
          rw [hnt] at hy2
          rw [hnt, hy2]
          dsimp only
          rw [loop_at_end step ctrl t1 dt y2 n]
          rfl
        · intro e he
          simp only [List.mem_singleton] at he
          rw [he]
          exact hInv2
      · push_neg at hclip
        have hnt : nextTime t t1 dt = t + dt :=
          nextTime_step t t1 dt hdt (le_of_lt hclip)
        have hsub : (t1 - (t + dt)) / dt = (t1 - t) / dt - 1 := by
          rw [show t1 - (t + dt) = (t1 - t) - dt by ring, sub_div,
            div_self (ne_of_gt hdt)]
        have hcsub : Int.ceil ((t1 - (t + dt)) / dt) =
            Int.ceil ((t1 - t) / dt) - 1 := by
          rw [hsub]
          have h := Int.ceil_sub_int ((t1 - t) / dt) (1 : ℤ)
          rw [Int.cast_one] at h
          exact h
        have hfuel2 : (Int.ceil ((t1 - (t + dt)) / dt)).toNat ≤ n := by
          rw [hcsub]; omega
        obtain ⟨traj2, htraj2, hlen2, hinv2all⟩ :=
          ih (t + dt) y2 hInv2 (le_of_lt hclip) hfuel2
        refine ⟨(t + dt, y2) :: traj2, ?_, ?_, ?_⟩
        · simp only [loop, if_neg ht]
          rw [hnt] at hy2
          rw [hnt, hy2]
          dsimp only
          rw [htraj2]
          rfl
        · simp only [List.length_cons, hlen2, hcsub]
          omega
        · intro e he
          rcases List.mem_cons.mp he with h1 | h1
          · rw [h1]; exact hInv2
          · exact hinv2all e h1

theorem mstep_mstep {σ : Type} (step : ℚ → ℚ → σ → Option σ) :
    mstep (mstep step) = step := by
  funext a b y
  simp [mstep]

/-- C2: step-count determinism: a constant-step solve with nonzero `dt0` of
matching sign and statically known bounds accepts exactly
`ceil(|t1 - t0| / |dt0|)` steps, and that is the figure the stats report for
static inputs. -/
theorem step_count_determinism {σ : Type} (step : ℚ → ℚ → σ → Option σ)
    (ctrl : CtrlKind) (t0 t1 dt : ℚ) (fuel : ℕ) (y0 : σ)
    (hstep : ∀ a b y, ∃ y2, step a b y = some y2)
    (hdir : (0 < dt ∧ t0 ≤ t1) ∨ (dt < 0 ∧ t1 ≤ t0))
    (hfuel : stepCount t0 t1 dt ≤ fuel) :
    (∃ traj, solveLoop step ctrl t0 t1 dt fuel y0 = Except.ok traj ∧
        traj.length = stepCount t0 t1 dt) ∧
      compiledNumSteps (JaxIn.static t0) (JaxIn.static t1) (JaxIn.static dt) =
        StepsReport.known (stepCount t0 t1 dt) := by
  constructor
  · rcases hdir with ⟨hdt, hle⟩ | ⟨hdt, hle⟩
    · -- forward in time
      have habs : |t1 - t0| = t1 - t0 := abs_of_nonneg (by linarith)
      have habsd : |dt| = dt := abs_of_pos hdt
      have hsc : stepCount t0 t1 dt = (Int.ceil ((t1 - t0) / dt)).toNat := by
        unfold stepCount; rw [habs, habsd]
      obtain ⟨traj, htraj, hlen, _⟩ :=
        loop_count step (fun _ => True)
          (fun a b y _ => by
            obtain ⟨y2, h2⟩ := hstep a b y
            exact ⟨y2, h2, trivial⟩)
          ctrl t1 dt hdt fuel t0 y0 trivial hle
          (by rw [hsc] at hfuel; exact hfuel)
      refine ⟨traj, ?_, by rw [hsc]; exact hlen⟩
      unfold solveLoop
      rw [if_neg (ne_of_gt hdt)]
      exact htraj
    · -- backward in time: the mirror of the forward case
      have hdt2 : 0 < -dt := by linarith
      have hle2 : -t0 ≤ -t1 := by linarith
      have habs : |t1 - t0| = (-t1) - (-t0) := by
        rw [abs_of_nonpos (by linarith)]; ring
      have habsd : |dt| = -dt := abs_of_neg hdt
      have hsc : stepCount t0 t1 dt =
          (Int.ceil (((-t1) - (-t0)) / (-dt))).toNat := by
        unfold stepCount; rw [habs, habsd]
      obtain ⟨traj, htraj, hlen, _⟩ :=
        loop_count (mstep step) (fun _ => True)
          (fun a b y _ => by
            obtain ⟨y2, h2⟩ := hstep (-a) (-b) y
            exact ⟨y2, h2, trivial⟩)
          ctrl (-t1) (-dt) hdt2 fuel (-t0) y0 trivial hle2
          (by rw [hsc] at hfuel; exact hfuel)
      have hmir := loop_mirror step ctrl t1 fuel t0 dt y0 (ne_of_lt hdt)
      rw [htraj] at hmir
      cases hres : loop step ctrl t1 fuel t0 dt y0 with
      | error e =>
        rw [hres] at hmir
        exact absurd hmir (by simp [mirrorTraj, Except.map])
      | ok l =>
        rw [hres] at hmir
        refine ⟨l, ?_, ?_⟩
        · unfold solveLoop
          rw [if_neg (ne_of_lt hdt)]
          exact hres
        · have hmap : traj = l.map (fun p => (-p.1, p.2)) := by
            simpa [mirrorTraj, Except.map] using hmir
          rw [hsc, ← hlen, hmap]
          simp
  · rfl

theorem stepCount_ex1 : stepCount 0 1 (1/10) = 10 := by
  unfold stepCount
  rw [show |(1:ℚ) - 0| = 1 by rw [abs_of_pos] <;> norm_num,
    show |(1:ℚ)/10| = 1/10 by rw [abs_of_pos] <;> norm_num,
    show (1:ℚ)/(1/10) = 10 by norm_num,
    show Int.ceil ((10:ℚ)) = 10 by norm_num]
  decide

theorem stepCount_ex2 : stepCount 0 1 (1/100) = 100 := by
  unfold stepCount
  rw [show |(1:ℚ) - 0| = 1 by rw [abs_of_pos] <;> norm_num,
    show |(1:ℚ)/100| = 1/100 by rw [abs_of_pos] <;> norm_num,
    show (1:ℚ)/(1/100) = 100 by norm_num,
    show Int.ceil ((100:ℚ)) = 100 by norm_num]
  decide

/-- Witness: `t0 = 0, t1 = 1, dt0 = 1/10` gives exactly 10 accepted steps,
and the formula gives 10 and 100 on the two quoted examples. -/
theorem step_count_determinism_witness :
    (∃ traj, solveLoop (fun _ _ (y : ℚ) => some y) CtrlKind.fixed 0 1 (1/10)
        10 1 = Except.ok traj ∧ traj.length = stepCount 0 1 (1/10)) ∧
      stepCount 0 1 (1/10) = 10 ∧ stepCount 0 1 (1/100) = 100 :=
  ⟨(step_count_determinism (fun _ _ y => some y) CtrlKind.fixed 0 1 (1/10) 10 1
      (fun a b y => ⟨y, rfl⟩) (Or.inl (by norm_num))
      (le_of_eq stepCount_ex1)).1,
    stepCount_ex1, stepCount_ex2⟩

/-- C1 (amended): time-reversal symmetry of the loop.  For every solver step
function and controller kind, re-posing the solve with the time-mirrored
solver — which for Euler on a term `f` is Euler on the vector field
`g(t, y) = -f(-t, y)`, equal to `-f` exactly when `f` is time-independent —
with endpoints `-t0, -t1` and step size `-dt0` yields identical `y` values
and negated `t` values over the whole accepted-step trajectory, and dense
interpolation at negated query times returns the same values. -/
theorem time_reversal_amended {σ : Type} (step : ℚ → ℚ → σ → Option σ)
    (ctrl : CtrlKind) (f : ℚ → ℚ → ℚ) (t0 t1 dt : ℚ) (fuel : ℕ) (y0 : σ)
    (ta ya tq : ℚ) (traj : List (ℚ × ℚ)) :
    solveLoop (mstep step) ctrl (-t0) (-t1) (-dt) fuel y0 =
        mirrorTraj (solveLoop step ctrl t0 t1 dt fuel y0) ∧
      eulerStep (fun a y => -(f (-a) y)) = mstep (eulerStep f) ∧
      denseEval (-ta) ya (traj.map (fun p => (-p.1, p.2))) (-tq) =
        denseEval ta ya traj tq := by
  refine ⟨solveLoop_mirror step ctrl t0 t1 dt fuel y0, ?_,
    denseEval_mirror traj ta ya tq⟩
  funext a b y
  show some (y + (b - a) * -(f (-a) y)) = some (y + (-b - -a) * f (-a) y)
  exact congrArg some (by ring)

/-- C1 counterexample: for the time-dependent term `f(t, y) = t`, re-posing
with `fʹ = -f` (exactly as the claim states, keeping the time dependence)
and negated endpoints and step size does not reproduce the `y` values: the
forward Euler solve over `[1, 2]` with `dt0 = 1` ends at `y = 1`, while the
re-posed solve over `[-1, -2]` with `dt0 = -1` ends at `y = -1`. -/
theorem time_reversal_counterexample :
    solveLoop (eulerStep (fun t _ => t)) CtrlKind.fixed 1 2 1 3 0 =
        Except.ok [((2 : ℚ), (1 : ℚ))] ∧
      solveLoop (eulerStep (fun t _ => -t)) CtrlKind.fixed (-1) (-2) (-1) 3 0 =
        Except.ok [((-2 : ℚ), (-1 : ℚ))] ∧
      ¬ Except.map (List.map Prod.snd)
          (solveLoop (eulerStep (fun t _ => -t)) CtrlKind.fixed (-1) (-2) (-1)
            3 0) =
        Except.map (List.map Prod.snd)
          (solveLoop (eulerStep (fun t _ => t)) CtrlKind.fixed 1 2 1 3 0) := by
  refine ⟨?_, ?_, ?_⟩ <;>
    norm_num [solveLoop, loop, nextTime, eulerStep, Except.map]

theorem stepCount_ex3 : stepCount 0 1 (1/20) = 20 := by
  unfold stepCount
  rw [show |(1:ℚ) - 0| = 1 by rw [abs_of_pos] <;> norm_num,
    show |(1:ℚ)/20| = 1/20 by rw [abs_of_pos] <;> norm_num,
    show (1:ℚ)/(1/20) = 20 by norm_num,
    show Int.ceil ((20:ℚ)) = 20 by norm_num]
  decide

theorem getD_le_foldr_max :
    ∀ (l : List ℕ) (i : ℕ), i < l.length → l.getD i 0 ≤ l.foldr max 0 := by
  intro l
  induction l with
  | nil => intro i hi; simp at hi
  | cons x xs ih =>
    intro i hi
    cases i with
    | zero =>
      simp only [List.getD_cons_zero, List.foldr_cons]
      exact le_max_left _ _
    | succ j =>
      simp only [List.getD_cons_succ, List.foldr_cons]
      exact le_trans (ih j (by simpa using hi)) (le_max_right _ _)

theorem range_map_getD (n i : ℕ) (g : ℕ → ℕ) (hi : i < n) :
    ((List.range n).map g).getD i 0 = g i := by
  rw [List.getD_eq_getElem?_getD, List.getElem?_map, List.getElem?_range hi]
  rfl

/-- C3 counterexample: a solve whose `dt0` is a vmapped batch `[1/10, 1/20]`
(with static `t0 = 0`, `t1 = 1`) reports the numeric batch `[20, 20]` — the
maximum step count over the batch, broadcast — not "unavailable", even
though the true per-element counts are `[10, 20]`. -/
theorem compiled_steps_batched_counterexample :
    compiledNumSteps (JaxIn.static 0) (JaxIn.static 1)
        (JaxIn.batched [1/10, 1/20]) = StepsReport.knownBatch [20, 20] ∧
      compiledNumSteps (JaxIn.static 0) (JaxIn.static 1)
        (JaxIn.batched [1/10, 1/20]) ≠ StepsReport.unavailable ∧
      [stepCount 0 1 (1/10), stepCount 0 1 (1/20)] = [10, 20] := by
  have hb : batchMaxSteps (JaxIn.static 0) (JaxIn.static 1)
      (JaxIn.batched [1/10, 1/20]) 2 = 20 := by
    show (((List.range 2).map
      (fun i => stepCount 0 1 (([(1:ℚ)/10, 1/20]).getD i 0))).foldr max 0) = 20
    rw [show List.range 2 = [0, 1] by rfl]
    simp only [List.map_cons, List.map_nil, List.foldr_cons, List.foldr_nil]
    rw [show ([(1:ℚ)/10, 1/20]).getD 0 0 = 1/10 by rfl,
      show ([(1:ℚ)/10, 1/20]).getD 1 0 = 1/20 by rfl,
      stepCount_ex1, stepCount_ex3]
    decide
  constructor
  · show StepsReport.knownBatch (List.replicate 2 (batchMaxSteps _ _ _ 2)) = _
    rw [hb]
    rfl
  constructor
  · show StepsReport.knownBatch (List.replicate 2 (batchMaxSteps _ _ _ 2)) ≠ _
    intro hc
    exact StepsReport.noConfusion hc
  · rw [stepCount_ex1, stepCount_ex3]

/-- C3 (amended): traced (jit run-time, unbatched) bounds or step size make
the compiled step count unavailable; but batched (vmapped) inputs report a
numeric batch — the maximum `ceil(|t1-t0|/|dt0|)` across the batch broadcast
to every element — never "unavailable", and that figure only bounds each
element's true accepted-step count from above (it is padded, not exact). -/
theorem compiled_steps_reporting {σ : Type} (step : ℚ → ℚ → σ → Option σ)
    (ctrl : CtrlKind) (t0 t1 : ℚ) (dts : List ℚ) (fuel : ℕ) (y0 : σ) (i : ℕ)
    (hstep : ∀ a b y, ∃ y2, step a b y = some y2)
    (hi : i < dts.length)
    (hdir : 0 < dts.getD i 0 ∧ t0 ≤ t1)
    (hfuel : stepCount t0 t1 (dts.getD i 0) ≤ fuel) :
    (∀ a b c : JaxIn,
        (a.isTraced || b.isTraced || c.isTraced) = true →
        compiledNumSteps a b c = StepsReport.unavailable) ∧
      compiledNumSteps (JaxIn.static t0) (JaxIn.static t1)
          (JaxIn.batched dts) =
        StepsReport.knownBatch (List.replicate dts.length
          (batchMaxSteps (JaxIn.static t0) (JaxIn.static t1)
            (JaxIn.batched dts) dts.length)) ∧
      stepCount t0 t1 (dts.getD i 0) ≤
        batchMaxSteps (JaxIn.static t0) (JaxIn.static t1) (JaxIn.batched dts)
          dts.length ∧
      ∃ traj, solveLoop step ctrl t0 t1 (dts.getD i 0) fuel y0 =
          Except.ok traj ∧
        traj.length = stepCount t0 t1 (dts.getD i 0) := by
  refine ⟨?_, rfl, ?_, ?_⟩
  · intro a b c h
    unfold compiledNumSteps
    rw [if_pos h]
  · have hmap : batchMaxSteps (JaxIn.static t0) (JaxIn.static t1)
        (JaxIn.batched dts) dts.length =
        ((List.range dts.length).map
          (fun j => stepCount t0 t1 (dts.getD j 0))).foldr max 0 := rfl
    rw [hmap]
    have hlen : i < ((List.range dts.length).map
        (fun j => stepCount t0 t1 (dts.getD j 0))).length := by
      simpa using hi
    have hle := getD_le_foldr_max _ i hlen
    rw [range_map_getD dts.length i _ hi] at hle
    exact hle
  · obtain ⟨hdt, hle⟩ := hdir
    have habs : |t1 - t0| = t1 - t0 := abs_of_nonneg (by linarith)
    have habsd : |dts.getD i 0| = dts.getD i 0 := abs_of_pos hdt
    have hsc : stepCount t0 t1 (dts.getD i 0) =
        (Int.ceil ((t1 - t0) / dts.getD i 0)).toNat := by
      unfold stepCount; rw [habs, habsd]
    obtain ⟨traj, htraj, hlen2, _⟩ :=
      loop_count step (fun _ => True)
        (fun a b y _ => by
          obtain ⟨y2, h2⟩ := hstep a b y
          exact ⟨y2, h2, trivial⟩)
        ctrl t1 (dts.getD i 0) hdt fuel t0 y0 trivial hle
        (by rw [hsc] at hfuel; exact hfuel)
    refine ⟨traj, ?_, by rw [hsc]; exact hlen2⟩
    unfold solveLoop
    rw [if_neg (ne_of_gt hdt)]
    exact htraj

/-- Witness: `compiled_steps_reporting` at `t0 = 0, t1 = 1`,
`dt0` batched as `[1/10, 1/20]`, element 0. -/
theorem compiled_steps_reporting_witness :
    (∀ a b c : JaxIn,
        (a.isTraced || b.isTraced || c.isTraced) = true →
        compiledNumSteps a b c = StepsReport.unavailable) ∧
      compiledNumSteps (JaxIn.static 0) (JaxIn.static 1)
          (JaxIn.batched [1/10, 1/20]) =
        StepsReport.knownBatch (List.replicate ([(1:ℚ)/10, 1/20]).length
          (batchMaxSteps (JaxIn.static 0) (JaxIn.static 1)
            (JaxIn.batched [1/10, 1/20]) ([(1:ℚ)/10, 1/20]).length)) ∧
      stepCount 0 1 (([(1:ℚ)/10, 1/20]).getD 0 0) ≤
        batchMaxSteps (JaxIn.static 0) (JaxIn.static 1)
          (JaxIn.batched [1/10, 1/20]) ([(1:ℚ)/10, 1/20]).length ∧
      ∃ traj, solveLoop (fun _ _ (y : ℚ) => some y) CtrlKind.fixed 0 1
          (([(1:ℚ)/10, 1/20]).getD 0 0) 10 1 = Except.ok traj ∧
        traj.length = stepCount 0 1 (([(1:ℚ)/10, 1/20]).getD 0 0) :=
  compiled_steps_reporting (fun _ _ y => some y) CtrlKind.fixed 0 1
    [1/10, 1/20] 10 1 0 (fun a b y => ⟨y, rfl⟩) (by decide)
    (by constructor <;> norm_num)
    (by rw [show ([(1:ℚ)/10, 1/20]).getD 0 0 = 1/10 from rfl, stepCount_ex1])

/-- C5: implicit-stage convergence failure handling.  At any loop state not
yet at `t1` where the solver signals "implicit solve did not converge"
(`none`), a fixed-step controller promotes the failure to the fatal error,
while an adaptive controller converts it into a rejected step: the solve
continues from the same `(t, y)` with a halved step size, committing nothing
for the failed attempt; the signal is never ignored. -/
theorem implicit_failure_handling {σ : Type} (step : ℚ → ℚ → σ → Option σ)
    (t1 t dt : ℚ) (y : σ) (fuel : ℕ) (hne : t ≠ t1)
    (hfail : step t (nextTime t t1 dt) y = none) :
    loop step CtrlKind.fixed t1 (fuel + 1) t dt y =
        Except.error ("Implicit solve did not converge") ∧
      loop step CtrlKind.adaptive t1 (fuel + 1) t dt y =
        loop step CtrlKind.adaptive t1 fuel t (dt / 2) y := by
  constructor <;> (simp only [loop, if_neg hne]; rw [hfail])

/-- Witness: a solver that always fails to converge, from `t = 0` toward
`t1 = 1`. -/
theorem implicit_failure_handling_witness :
    loop (fun _ _ (_ : ℚ) => none) CtrlKind.fixed 1 3 0 1 0 =
        Except.error ("Implicit solve did not converge") ∧
      loop (fun _ _ (_ : ℚ) => none) CtrlKind.adaptive 1 3 0 1 0 =
        loop (fun _ _ (_ : ℚ) => none) CtrlKind.adaptive 1 2 0 (1 / 2) 0 :=
  implicit_failure_handling (fun _ _ _ => none) 1 0 1 0 2 (by norm_num) rfl

mutual
theorem treeZip_same_treedef {α β γ : Type} (f : α → β → γ) :
    ∀ (x : PTree α) (y : PTree β), treedef x = PTree.map (fun _ => ()) y →
      ∃ z, treeZip f x y = some z ∧ treedef z = treedef x
  | .leaf a, y => by
    intro h
    obtain ⟨b, rfl⟩ : ∃ b, y = .leaf b := by
      cases y with
      | leaf b => exact ⟨b, rfl⟩
      | node ds => exact absurd h (by simp [treedef, PTree.map])
    exact ⟨.leaf (f a b), rfl, rfl⟩
  | .node cs, y => by
    intro h
    obtain ⟨ds, rfl⟩ : ∃ ds, y = .node ds := by
      cases y with
      | leaf b => exact absurd h (by simp [treedef, PTree.map])
      | node ds => exact ⟨ds, rfl⟩
    have hf : treedefF cs = PForest.map (fun _ => ()) ds := by
      have h2 : PTree.node (PForest.map (fun _ => ()) cs) =
          PTree.node (PForest.map (fun _ => ()) ds) := h
      injection h2
    obtain ⟨es, hes, htd⟩ := forestZip_same_treedef f cs ds hf
    refine ⟨.node es, ?_, ?_⟩
    · show (match forestZip f cs ds with
        | some es => some (PTree.node es)
        | none => none) = some (PTree.node es)
      rw [hes]
    · show treedef (PTree.node es) = treedef (PTree.node cs)
      simp only [treedef, PTree.map]
      exact congrArg PTree.node htd
theorem forestZip_same_treedef {α β γ : Type} (f : α → β → γ) :
    ∀ (x : PForest α) (y : PForest β),
      treedefF x = PForest.map (fun _ => ()) y →
      ∃ z, forestZip f x y = some z ∧ treedefF z = treedefF x
  | .nil, y => by
    intro h
    obtain rfl : y = .nil := by
      cases y with
      | nil => rfl
      | cons u us => exact absurd h (by simp [treedefF, PForest.map])
    exact ⟨.nil, rfl, rfl⟩
  | .cons t ts, y => by
    intro h
    obtain ⟨u, us, rfl⟩ : ∃ u us, y = .cons u us := by
      cases y with
      | nil => exact absurd h (by simp [treedefF, PForest.map])
      | cons u us => exact ⟨u, us, rfl⟩
    have h2 : PForest.cons (PTree.map (fun _ => ()) t)
          (PForest.map (fun _ => ()) ts) =
        PForest.cons (PTree.map (fun _ => ()) u)
          (PForest.map (fun _ => ()) us) := h
    have ht : PTree.map (fun _ => ()) t = PTree.map (fun _ => ()) u := by
      injection h2
    have hts : PForest.map (fun _ => ()) ts =
        PForest.map (fun _ => ()) us := by
      injection h2
    obtain ⟨v, hv, hvtd⟩ := treeZip_same_treedef f t u ht
    obtain ⟨vs, hvs, hvstd⟩ := forestZip_same_treedef f ts us hts
    refine ⟨.cons v vs, ?_, ?_⟩
    · show (match treeZip f t u, forestZip f ts us with
        | some v, some vs => some (PForest.cons v vs)
        | _, _ => none) = some (PForest.cons v vs)
      rw [hv, hvs]
    · show treedefF (PForest.cons v vs) = treedefF (PForest.cons t ts)
      simp only [treedefF, PForest.map]
      rw [show PTree.map (fun x => ()) v = PTree.map (fun x => ()) t from
        hvtd]
      rw [show PForest.map (fun x => ()) vs = PForest.map (fun x => ()) ts
        from hvstd]
end

mutual
theorem treedef_map {α β : Type} (g : α → β) :
    ∀ t : PTree α, treedef (PTree.map g t) = treedef t
  | .leaf a => rfl
  | .node cs => by
    show PTree.node (PForest.map (fun _ => ())
        (PForest.map g cs)) = PTree.node (PForest.map (fun _ => ()) cs)
    exact congrArg PTree.node (treedefF_map g cs)
theorem treedefF_map {α β : Type} (g : α → β) :
    ∀ cs : PForest α,
      PForest.map (fun _ => ()) (PForest.map g cs) =
        PForest.map (fun _ => ()) cs
  | .nil => rfl
  | .cons t ts => by
    show PForest.cons (PTree.map (fun _ => ()) (PTree.map g t))
        (PForest.map (fun _ => ()) (PForest.map g ts)) = _
    rw [show PTree.map (fun _ => ()) (PTree.map g t) =
        PTree.map (fun _ => ()) t from treedef_map g t]
    rw [treedefF_map g ts]
    rfl
end

theorem loop_inv {σ : Type} (step : ℚ → ℚ → σ → Option σ) (Inv : σ → Prop)
    (hstep : ∀ a b y y2, Inv y → step a b y = some y2 → Inv y2)
    (ctrl : CtrlKind) (t1 : ℚ) :
    ∀ (fuel : ℕ) (t dt : ℚ) (y : σ) (traj : List (ℚ × σ)), Inv y →
      loop step ctrl t1 fuel t dt y = Except.ok traj →
      ∀ e ∈ traj, Inv e.2 := by
  intro fuel
  induction fuel with
  | zero =>
    intro t dt y traj hy hloop e he
    by_cases ht : t = t1
    · simp only [loop, if_pos ht] at hloop
      injection hloop with h
      rw [← h] at he
      simp at he
    · simp only [loop, if_neg ht] at hloop
      exact Except.noConfusion hloop
  | succ n ih =>
    intro t dt y traj hy hloop e he
    by_cases ht : t = t1
    · simp only [loop, if_pos ht] at hloop
      injection hloop with h
      rw [← h] at he
      simp at he
    · simp only [loop, if_neg ht] at hloop
      cases hstep2 : step t (nextTime t t1 dt) y with
      | none =>
        rw [hstep2] at hloop
        dsimp only at hloop
        cases ctrl with
        | fixed => exact Except.noConfusion hloop
        | adaptive => exact ih t (dt / 2) y traj hy hloop e he
      | some y2 =>
        rw [hstep2] at hloop
        dsimp only at hloop
        have hInv2 : Inv y2 := hstep t (nextTime t t1 dt) y y2 hy hstep2
        cases hres : loop step ctrl t1 n (nextTime t t1 dt) dt y2 with
        | error e2 =>
          rw [hres] at hloop
          exact Except.noConfusion hloop
        | ok l =>
          rw [hres] at hloop
          have htraj : (nextTime t t1 dt, y2) :: l = traj := by
            simpa [Except.map] using hloop
          rw [← htraj] at he
          rcases List.mem_cons.mp he with h1 | h1
          · rw [h1]; exact hInv2
          · exact ih (nextTime t t1 dt) dt y2 l hInv2 hres e h1

/-- C6: pytree-shape preservation: whenever a solve over pytree state with a
structure-preserving vector field returns a trajectory, every recorded state
has exactly the treedef of the initial state `y0` — no step or save policy
alters the container structure. -/
theorem pytree_structure_preserved (f : ℚ → PTree ℚ → PTree ℚ)
    (ctrl : CtrlKind) (t0 t1 dt : ℚ) (fuel : ℕ) (y0 : PTree ℚ)
    (traj : List (ℚ × PTree ℚ))
    (hf : ∀ a y, treedef y = treedef y0 → treedef (f a y) = treedef y)
    (hok : solveLoop (eulerTreeStep f) ctrl t0 t1 dt fuel y0 =
      Except.ok traj) :
    ∀ e ∈ traj, treedef e.2 = treedef y0 := by
  have hstep : ∀ a b y y2, treedef y = treedef y0 →
      eulerTreeStep f a b y = some y2 → treedef y2 = treedef y0 := by
    intro a b y y2 hy hsome
    have hfy : treedef y = PTree.map (fun _ => ()) (f a y) := by
      rw [show PTree.map (fun _ => ()) (f a y) = treedef (f a y) from rfl,
        hf a y hy]
    obtain ⟨z, hz, hztd⟩ :=
      treeZip_same_treedef (fun u v => u + (b - a) * v) y (f a y) hfy
    rw [show eulerTreeStep f a b y =
        treeZip (fun u v => u + (b - a) * v) y (f a y) from rfl, hz] at hsome
    injection hsome with h2
    rw [← h2, hztd, hy]
  by_cases hdt : dt = 0
  · unfold solveLoop at hok
    rw [if_pos hdt] at hok
    exact absurd hok (fun hc => Except.noConfusion hc)
  · unfold solveLoop at hok
    rw [if_neg hdt] at hok
    exact loop_inv (eulerTreeStep f) (fun y => treedef y = treedef y0)
      hstep ctrl t1 fuel t0 dt y0 traj rfl hok

/-- Witness: the structure of every recorded state of a concrete pytree
solve matches the initial structure. -/
theorem pytree_structure_preserved_witness :
    treedef (((1 : ℚ), c6y1) : ℚ × PTree ℚ).2 = treedef c6y0 :=
  pytree_structure_preserved (fun _ y => y.map (fun x => -x)) CtrlKind.fixed
    0 2 1 3 c6y0 c6traj
    (fun _ y _ => treedef_map (fun x => -x) y)
    (by norm_num [solveLoop, loop, nextTime, eulerTreeStep, treeZip,
      forestZip, PTree.map, PForest.map, Except.map, c6y0, c6y1, c6traj])
    (1, c6y1) (by simp [c6traj])

theorem childNode_seed (nd : BNode) (b : Bool) (wm : ℚ) :
    (childNode nd b wm).seed = prngSplit nd.seed b := by
  cases b <;> rfl

theorem nodeAt_seed_cons (root : BNode) (b : Bool) (q : List Bool) :
    (nodeAt root (b :: q)).seed = prngSplit (nodeAt root q).seed b :=
  childNode_seed _ _ _

theorem seed_le_nodeAt (root : BNode) :
    ∀ p : List Bool, root.seed ≤ (nodeAt root p).seed
  | [] => le_refl _
  | b :: q => by
    rw [nodeAt_seed_cons]
    have h := seed_le_nodeAt root q
    unfold prngSplit
    cases b <;> simp <;> omega

theorem nodeAt_seed_inj (root : BNode) :
    ∀ p q : List Bool,
      (nodeAt root p).seed = (nodeAt root q).seed → p = q
  | [], [] => fun _ => rfl
  | [], b :: q => by
    intro h
    exfalso
    have h1 := seed_le_nodeAt root q
    rw [nodeAt_seed_cons] at h
    rw [show (nodeAt root ([] : List Bool)).seed = root.seed from rfl] at h
    unfold prngSplit at h
    cases b <;> simp at h <;> omega
  | b :: p, [] => by
    intro h
    exfalso
    have h1 := seed_le_nodeAt root p
    rw [nodeAt_seed_cons] at h
    rw [show (nodeAt root ([] : List Bool)).seed = root.seed from rfl] at h
    unfold prngSplit at h
    cases b <;> simp at h <;> omega
  | b :: p, c :: q => by
    intro h
    rw [nodeAt_seed_cons, nodeAt_seed_cons] at h
    unfold prngSplit at h
    have hbc : b = c := by
      cases b <;> cases c <;> simp at h <;> first | rfl | omega
    subst hbc
    have hseq : (nodeAt root p).seed = (nodeAt root q).seed := by
      cases b <;> simp at h <;> omega
    rw [nodeAt_seed_inj root p q hseq]

theorem consistent_nil (root : BNode) : Consistent root [] := by
  intro p v h
  simp [List.lookup] at h

theorem consistent_insert (root : BNode) (cache : List (ℕ × ℚ))
    (p : List Bool) (h : Consistent root cache) :
    Consistent root
      (((nodeAt root p).seed, midValue (nodeAt root p)) :: cache) := by
  intro q v hlook
  by_cases hk : (nodeAt root q).seed = (nodeAt root p).seed
  · obtain rfl : q = p := nodeAt_seed_inj root q p hk
    simp only [List.lookup_cons, beq_self_eq_true, cond_true] at hlook
    exact (Option.some.inj hlook).symm
  · simp only [List.lookup_cons, beq_false_of_ne hk, cond_false] at hlook
    exact h q v hlook

theorem evalWMemo_pure (root : BNode) :
    ∀ (d : ℕ) (p : List Bool) (cache : List (ℕ × ℚ)) (t : ℚ),
      Consistent root cache →
      (evalWMemo d (nodeAt root p) cache t).1 = evalW d (nodeAt root p) t ∧
      Consistent root (evalWMemo d (nodeAt root p) cache t).2 := by
  intro d
  induction d with
  | zero =>
    intro p cache t hcons
    exact ⟨rfl, hcons⟩
  | succ n ih =>
    intro p cache t hcons
    simp only [evalW, evalWMemo]
    cases hlook : cache.lookup (nodeAt root p).seed with
    | some wm =>
      have hwm : wm = midValue (nodeAt root p) := hcons p wm hlook
      subst hwm
      dsimp only
      by_cases hhalf : t ≤ ((nodeAt root p).lo + (nodeAt root p).hi) / 2
      · rw [if_pos hhalf, if_pos hhalf]
        exact ih (false :: p) cache t hcons
      · rw [if_neg hhalf, if_neg hhalf]
        exact ih (true :: p) cache t hcons
    | none =>
      have hcons2 : Consistent root
          (((nodeAt root p).seed, midValue (nodeAt root p)) :: cache) :=
        consistent_insert root cache p hcons
      dsimp only
      by_cases hhalf : t ≤ ((nodeAt root p).lo + (nodeAt root p).hi) / 2
      · rw [if_pos hhalf, if_pos hhalf]
        exact ih (false :: p) _ t hcons2
      · rw [if_neg hhalf, if_neg hhalf]
        exact ih (true :: p) _ t hcons2

theorem vbtIncMemo_pure (root : BNode) (d : ℕ) (cache : List (ℕ × ℚ))
    (q : ℚ × ℚ) (hcons : Consistent root cache) :
    (vbtIncMemo root d cache q).1 = vbtIncPure root d q ∧
      Consistent root (vbtIncMemo root d cache q).2 := by
  have h1 := evalWMemo_pure root d [] cache q.1 hcons
  have h2 := evalWMemo_pure root d [] (evalWMemo d root cache q.1).2 q.2 h1.2
  constructor
  · show (evalWMemo d root (evalWMemo d root cache q.1).2 q.2).1 -
        (evalWMemo d root cache q.1).1 = evalW d root q.2 - evalW d root q.1
    rw [show nodeAt root [] = root from rfl] at h1 h2
    rw [h1.1, h2.1]
  · exact h2.2

theorem runQueriesFrom_pure (root : BNode) (d : ℕ) :
    ∀ (qs : List (ℚ × ℚ)) (cache : List (ℕ × ℚ)),
      Consistent root cache →
      runQueriesFrom root d cache qs = qs.map (vbtIncPure root d) := by
  intro qs
  induction qs with
  | nil => intro cache _; rfl
  | cons q qs2 ih =>
    intro cache hcons
    have h := vbtIncMemo_pure root d cache q hcons
    simp only [runQueriesFrom, List.map_cons, h.1]
    rw [ih _ h.2]

/-- C4: path-generator reproducibility as a two-run property: a virtual
Brownian tree instance with a fixed seed answers every interval query with
the pure deterministic function of (seed, query) — so any two queries of
the same subinterval return bit-identical increments, regardless of the
order, number or interleaving of the queries issued before them (the memo
cache never influences an answer). -/
theorem vbt_reproducibility (seed : ℕ) (t0 t1 : ℚ) (d : ℕ)
    (qs qs2 : List (ℚ × ℚ)) (q : ℚ × ℚ) :
    runQueries (vbtRoot seed t0 t1) d qs =
        qs.map (vbtIncPure (vbtRoot seed t0 t1) d) ∧
      (runQueries (vbtRoot seed t0 t1) d (qs ++ [q])).getLast? =
        (runQueries (vbtRoot seed t0 t1) d (qs2 ++ [q])).getLast? := by
  have hmain : ∀ l : List (ℚ × ℚ), runQueries (vbtRoot seed t0 t1) d l =
      l.map (vbtIncPure (vbtRoot seed t0 t1) d) :=
    fun l => runQueriesFrom_pure _ d l [] (consistent_nil _)
  refine ⟨hmain qs, ?_⟩
  rw [hmain (qs ++ [q]), hmain (qs2 ++ [q])]
  simp [List.getLast?_concat]

end Diffrax
